import Mathlib

/-!
Verification of the `icap` package's chunked transfer codec (`chunked.go`)
and connection-serving loop (`server.go`).

Bytes are modelled as natural numbers (`Nat`); byte streams as `List Nat`.
The buffered reader (`bufio.Reader`) over a finite byte stream is modelled
by the remaining list of bytes; `uint64` arithmetic is `Nat` arithmetic
reduced modulo `2 ^ 64` where the Go code can wrap.
-/

namespace Icap

/-- Error values that the chunked codec and line reader can produce.
Each constructor corresponds to one concrete Go error value:
`io.EOF`, `io.ErrUnexpectedEOF`, `errLineTooLong`,
`fmt.Errorf("invalid chunk length: '%s'", v)` (which records the offending
line), and `errors.New("malformed chunked encoding")`. -/
inductive Err where
  | eof
  | unexpectedEOF
  | lineTooLong
  | invalidChunkLength (v : List Nat)
  | malformedChunkedEncoding
  deriving DecidableEq, Repr

/-- Bytes of a Lean string literal, used to transcribe Go string literals
such as `"0\r\n"` into the byte-stream model. -/
def strBytes (s : String) : List Nat := s.data.map Char.toNat

/-- Error message of each modelled error, as produced by the Go `Error()`
method of the corresponding error value. -/
def errMessage : Err → String
  | Err.eof => "EOF"
  | Err.unexpectedEOF => "unexpected EOF"
  | Err.lineTooLong => "header line too long"
  | Err.invalidChunkLength v =>
      "invalid chunk length: '" ++ ((v.map Char.ofNat).asString) ++ "'"
  | Err.malformedChunkedEncoding => "malformed chunked encoding"

/-- Source: `const maxLineLength = 4096` in chunked.go. -/
def maxLineLength : Nat := 4096

/-- Source: `isASCIISpace` in chunked.go: space, tab, newline, carriage return. -/
def isASCIISpace (b : Nat) : Bool :=
  b == 32 || b == 9 || b == 10 || b == 13

/-- Source: `trimTrailingWhitespace` in chunked.go: drop ASCII whitespace
from the end of the byte slice. -/
def trimTrailingWhitespace (b : List Nat) : List Nat :=
  (b.reverse.dropWhile isASCIISpace).reverse

/-- Model of `bufio.Reader.ReadSlice('\n')` over a byte list: the shortest
prefix of the stream up to and including the first newline byte, together
with the rest of the stream; `none` when the stream holds no newline. -/
def readSliceNL : List Nat → Option (List Nat × List Nat)
  | [] => none
  | b :: bs =>
    if b = 10 then some ([10], bs)
    else
      match readSliceNL bs with
      | some (p, rest) => some (b :: p, rest)
      | none => none

/-- Source: `readLine` in chunked.go. `ReadSlice` returns `bufio.ErrBufferFull`
(mapped to `errLineTooLong`) when no newline fits in the 4096-byte buffer, and
`io.EOF` (mapped to `io.ErrUnexpectedEOF`) when the stream ends first; a found
line of `maxLineLength` or more bytes is also rejected as too long, and a good
line is returned with trailing whitespace trimmed. -/
def readLine (input : List Nat) : Except Err (List Nat × List Nat) :=
  match readSliceNL input with
  | some (p, rest) =>
    if maxLineLength ≤ p.length then Except.error Err.lineTooLong
    else Except.ok (trimTrailingWhitespace p, rest)
  | none =>
    if maxLineLength ≤ input.length then Except.error Err.lineTooLong
    else Except.error Err.unexpectedEOF

/-- Hexadecimal value of one byte, from the `switch` in `parseHexUint`:
digits `0`-`9`, lower-case `a`-`f`, upper-case `A`-`F`; `none` otherwise. -/
def hexVal (b : Nat) : Option Nat :=
  if 48 ≤ b ∧ b ≤ 57 then some (b - 48)
  else if 97 ≤ b ∧ b ≤ 102 then some (b - 97 + 10)
  else if 65 ≤ b ∧ b ≤ 70 then some (b - 65 + 10)
  else none

/-- Loop of `parseHexUint` in chunked.go: `n <<= 4` on a `uint64` (hence the
reduction modulo `2 ^ 64`) followed by `n |= uint64(b)`; a non-hex byte
aborts with the `invalid chunk length` error carrying the whole input `v`. -/
def parseHexCore (v : List Nat) : Nat → List Nat → Except Err Nat
  | n, [] => Except.ok n
  | n, b :: rest =>
    match hexVal b with
    | some d => parseHexCore v (((n <<< 4) % 2 ^ 64) ||| d) rest
    | none => Except.error (Err.invalidChunkLength v)

/-- Source: `parseHexUint` in chunked.go. -/
def parseHexUint (v : List Nat) : Except Err Nat :=
  parseHexCore v 0 v

/-- One step of the specification-side base-16 fold. -/
def hexStep (a b : Nat) : Nat := 16 * a + (hexVal b).getD 0

/-- Specification-side value of a hex-digit string: its digits read in
base 16, without any modular reduction. -/
def hexValue (v : List Nat) : Nat :=
  v.foldl hexStep 0

/-- Source: the `chunkedReader` struct in chunked.go: the buffered reader
(modelled by the remaining byte stream), the count `n` of unread bytes in
the current chunk, and the latched error. -/
structure chunkedReader where
  r : List Nat
  n : Nat
  err : Option Err
  deriving DecidableEq, Repr

/-- Source: `chunkedReader.beginChunk` in chunked.go: read the chunk-size
line, parse it, and latch `io.EOF` on a zero-length chunk. On a parse
failure `cr.n` receives `parseHexUint`'s zero result. -/
def beginChunk (cr : chunkedReader) : chunkedReader :=
  match readLine cr.r with
  | Except.error e => { cr with err := some e }
  | Except.ok (line, rest) =>
    match parseHexUint line with
    | Except.error e => { r := rest, n := 0, err := some e }
    | Except.ok sz =>
      if sz = 0 then { r := rest, n := sz, err := some Err.eof }
      else { r := rest, n := sz, err := cr.err }

/-- Data-reading tail of `chunkedReader.Read` in chunked.go, entered with a
non-latched reader positioned inside a chunk with `cr.n > 0` unread bytes:
`b` is cut to `cr.n` bytes, `cr.r.Read(b)` returns up to that many front
bytes of the stream (`io.EOF` when the stream is empty and the buffer
non-empty, and `(0, nil)` on a zero-length buffer), `cr.n` is decremented,
and when the chunk is exhausted the two-byte `io.ReadFull(cr.r, cr.buf[:])`
must produce `\r\n` (it returns `io.EOF` on an empty stream and
`io.ErrUnexpectedEOF` on a single byte). -/
def chunkedReadData (cr : chunkedReader) (blen : Nat) : List Nat × chunkedReader :=
  let m := min blen cr.n
  match cr.r with
  | [] =>
    if m = 0 then ([], cr)
    else ([], { cr with err := some Err.eof })
  | x :: xs =>
    let got := (x :: xs).take m
    let rest := (x :: xs).drop m
    let n2 := cr.n - got.length
    if n2 = 0 then
      match rest with
      | c1 :: c2 :: rest2 =>
        if c1 = 13 ∧ c2 = 10 then (got, { r := rest2, n := 0, err := none })
        else (got, { r := rest2, n := 0, err := some Err.malformedChunkedEncoding })
      | [_] => (got, { r := [], n := 0, err := some Err.unexpectedEOF })
      | [] => (got, { r := [], n := 0, err := some Err.eof })
    else (got, { r := rest, n := n2, err := none })

/-- Source: `chunkedReader.Read` in chunked.go, for a caller buffer of
capacity `blen`. Returns the bytes read and the updated reader; the error
returned by the Go method is exactly the `err` field of the updated reader.
A latched error returns immediately; a reader positioned between chunks
(`cr.n == 0`) first runs `beginChunk`; then the data path `chunkedReadData`
runs on the (possibly updated) reader. -/
def chunkedRead (cr : chunkedReader) (blen : Nat) : List Nat × chunkedReader :=
  if cr.err.isSome then ([], cr)
  else
    let cr1 := if cr.n = 0 then beginChunk cr else cr
    if cr1.err.isSome then ([], cr1)
    else chunkedReadData cr1 blen

/-- Repeatedly call `chunkedRead` with buffer capacity `k` (fuelled so the
definition is total), concatenating the bytes obtained, and stopping at the
first latched error: reading the stream to end-of-stream. -/
def readAll : Nat → chunkedReader → Nat → List Nat × chunkedReader
  | 0, cr, _ => ([], cr)
  | fuel + 1, cr, k =>
    if cr.err.isSome then ([], cr)
    else
      let p := chunkedRead cr k
      let q := readAll fuel p.2 k
      (p.1 ++ q.1, q.2)

/-- The reader, driven from state `cr` with buffer capacity `k`, eventually
yields exactly the bytes `out` and settles in state `cr'`: with any
sufficiently large fuel, `readAll` computes `(out, cr')`. -/
def ReadsTo (cr : chunkedReader) (k : Nat) (out : List Nat) (cr' : chunkedReader) : Prop :=
  ∃ f, ∀ g, f ≤ g → readAll g cr k = (out, cr')

/-- Backward-digit accumulator for the `%x` format of `fmt.Fprintf`. -/
def hexDigit (d : Nat) : Nat :=
  if d < 10 then 48 + d else 87 + d

/-- Digits of `n` in base 16, most significant first, prepended to `acc`. -/
def toHexAux (n : Nat) (acc : List Nat) : List Nat :=
  if h : n = 0 then acc
  else toHexAux (n / 16) (hexDigit (n % 16) :: acc)
  decreasing_by exact Nat.div_lt_self (Nat.pos_of_ne_zero h) (by omega)

/-- Bytes of Go's `fmt.Sprintf("%x", n)` for a non-negative integer. -/
def toHex (n : Nat) : List Nat :=
  if n = 0 then [48] else toHexAux n []

/-- Source: `chunkedWriter.Write` in chunked.go, with the underlying `Wire`
writer modelled as an accumulating byte list that never fails. A zero-length
write emits nothing and returns 0; otherwise the frame
`hex(len(data)) CRLF data CRLF` is appended and `len(data)` returned. -/
def chunkedWriter.Write (wire : List Nat) (data : List Nat) : List Nat × Nat :=
  if data.length = 0 then (wire, 0)
  else (wire ++ toHex data.length ++ strBytes "\r\n" ++ data ++ strBytes "\r\n",
        data.length)

/-- Source: `chunkedWriter.Close` in chunked.go: `io.WriteString(cw.Wire, "0\r\n")`. -/
def chunkedWriter.Close (wire : List Nat) : List Nat :=
  wire ++ strBytes "0\r\n"

/-- Write every buffer in order through `chunkedWriter.Write`, starting from
wire state `wire`. -/
def writeAllChunks : List (List Nat) → List Nat → List Nat
  | [], wire => wire
  | b :: bs, wire => writeAllChunks bs (chunkedWriter.Write wire b).1

/-- Bytes on the wire after writing every buffer and then closing the writer. -/
def encodeChunked (bufs : List (List Nat)) : List Nat :=
  chunkedWriter.Close (writeAllChunks bufs [])

/-- Behaviour of one handler invocation: it either returns normally (possibly
having set `Connection: close` on its response) or panics. -/
inductive HandlerOutcome where
  | returns (setsConnectionClose : Bool)
  | panics
  deriving DecidableEq, Repr

/-- Outcome of one `c.readRequest()` call in `conn.serve`: a nil writer, a
read error with a non-nil writer, or a request to hand to the handler. -/
inductive ReadOutcome where
  | nilWriter
  | readError
  | request (h : HandlerOutcome)
  deriving DecidableEq, Repr

/-- Observable effects of one run of `conn.serve`: how many handler
invocations completed (reaching `finishRequest`), how many times
`c.rwc.Close()` was invoked, whether `conn.close` flushed the buffered
writer, and whether the deferred recovery logged a panic with a stack trace. -/
structure ServeResult where
  served : Nat
  rwcCloses : Nat
  flushed : Bool
  panicLogged : Bool
  deriving DecidableEq, Repr

/-- Source: `conn.serve` in server.go, driven by the successive outcomes of
`c.readRequest()`. On a nil writer or a read error the loop calls
`c.rwc.Close()` directly, breaks, and then `c.close()` flushes the buffer
and calls `c.rwc.Close()` again. On a request the handler runs; if it
returns, `w.finishRequest()` completes and the loop continues regardless of
the response's `Connection: close` header (the loop inspects nothing of the
response); if it panics, the deferred `recover` logs the panic with a stack
trace and `serve` returns without reaching `c.close()`.
`finishRequest` itself is not in the sources under verification; it is
Modelled from the spec: per §4.3 it closes the chunked body stream and
flushes, and does not close the connection. An empty outcome list models a
run observed before any further read completes. -/
def conn.serve : List ReadOutcome → ServeResult
  | [] => ⟨0, 0, false, false⟩
  | ReadOutcome.nilWriter :: _ => ⟨0, 2, true, false⟩
  | ReadOutcome.readError :: _ => ⟨0, 2, true, false⟩
  | ReadOutcome.request h :: rest =>
    match h with
    | HandlerOutcome.panics => ⟨0, 0, false, true⟩
    | HandlerOutcome.returns _ =>
      let r := conn.serve rest
      ⟨r.served + 1, r.rwcCloses, r.flushed, r.panicLogged⟩

/-! ### Arithmetic of `parseHexUint` -/

theorem lor_two_pow_mul : ∀ (k a b : Nat), b < 2 ^ k → (2 ^ k * a) ||| b = 2 ^ k * a + b := by
  intro k
  induction k with
  | zero =>
    intro a b hb
    interval_cases b
    simp
  | succ k ih =>
    intro a b hb
    have hd2 : Nat.div2 b < 2 ^ k := by
      rw [Nat.div2_val]
      omega
    have hb' : Nat.bit (Nat.bodd b) (Nat.div2 b) = b := Nat.bit_decomp b
    have ha' : Nat.bit false (2 ^ k * a) = 2 ^ (k + 1) * a := by
      simp [Nat.bit_val]
      ring
    calc 2 ^ (k + 1) * a ||| b
        = Nat.bit false (2 ^ k * a) ||| Nat.bit (Nat.bodd b) (Nat.div2 b) := by
          rw [hb', ha']
      _ = Nat.bit (false || Nat.bodd b) ((2 ^ k * a) ||| Nat.div2 b) := by
          rw [Nat.lor_bit]
      _ = Nat.bit (Nat.bodd b) (2 ^ k * a + Nat.div2 b) := by
          rw [Bool.false_or, ih a (Nat.div2 b) hd2]
      _ = 2 ^ (k + 1) * a + b := by
          rw [Nat.bit_val]
          have hsum := Nat.bodd_add_div2 b
          have hp : (2 : Nat) ^ (k + 1) * a = 2 * (2 ^ k * a) := by ring
          cases hob : Nat.bodd b <;> simp [hob] at hsum ⊢ <;> omega

theorem step_lor_eq (n d : Nat) (hd : d < 16) :
    ((n <<< 4) % 2 ^ 64) ||| d = 16 * (n % 2 ^ 60) + d := by
  have h1 : n <<< 4 = 16 * n := by
    rw [Nat.shiftLeft_eq]
    ring
  have h2 : (16 * n) % 2 ^ 64 = 16 * (n % 2 ^ 60) := by
    have : (2 : Nat) ^ 64 = 16 * 2 ^ 60 := by norm_num
    rw [this, Nat.mul_mod_mul_left]
  have h3 : (16 : Nat) = 2 ^ 4 := by norm_num
  rw [h1, h2, h3, lor_two_pow_mul 4 (n % 2 ^ 60) d (by omega)]

theorem foldl_hexStep_congr (bs : List Nat) :
    ∀ a a', a ≡ a' [MOD 2 ^ 64] →
      bs.foldl hexStep a ≡ bs.foldl hexStep a' [MOD 2 ^ 64] := by
  induction bs with
  | nil => intro a a' h; simpa using h
  | cons b bs ih =>
    intro a a' h
    simp only [List.foldl_cons]
    exact ih _ _ (Nat.ModEq.add_right _ (Nat.ModEq.mul_left 16 h))

theorem parseHexCore_all_hex (v : List Nat) :
    ∀ (bs : List Nat), (∀ b ∈ bs, (hexVal b).isSome) →
      ∀ n, n < 2 ^ 64 →
        parseHexCore v n bs = Except.ok ((bs.foldl hexStep n) % 2 ^ 64) := by
  intro bs
  induction bs with
  | nil =>
    intro _ n hn
    simp only [parseHexCore, List.foldl_nil]
    rw [Nat.mod_eq_of_lt hn]
  | cons b bs ih =>
    intro hall n hn
    have hb : (hexVal b).isSome := hall b (List.mem_cons_self b bs)
    obtain ⟨d, hd⟩ := Option.isSome_iff_exists.mp hb
    have hd16 : d < 16 := by
      unfold hexVal at hd
      split_ifs at hd <;> simp at hd <;> omega
    have hlt : 16 * (n % 2 ^ 60) + d < 2 ^ 64 := by
      have := Nat.mod_lt n (show 0 < 2 ^ 60 by norm_num)
      omega
    have hrec := ih (fun x hx => hall x (List.mem_cons_of_mem b hx))
      (16 * (n % 2 ^ 60) + d) hlt
    have hcore : parseHexCore v n (b :: bs) =
        parseHexCore v (16 * (n % 2 ^ 60) + d) bs := by
      simp only [parseHexCore, hd]
      rw [step_lor_eq n d hd16]
    rw [hcore, hrec]
    congr 1
    have hmodeq : (16 * (n % 2 ^ 60) + d) ≡ (16 * n + d) [MOD 2 ^ 64] := by
      apply Nat.ModEq.add_right
      have : (2 : Nat) ^ 64 = 16 * 2 ^ 60 := by norm_num
      rw [this]
      exact Nat.ModEq.mul_left' 16 (Nat.mod_modEq n (2 ^ 60))
    have := foldl_hexStep_congr bs _ _ hmodeq
    have hstep : hexStep n b = 16 * n + d := by
      simp [hexStep, hd]
    simp only [List.foldl_cons, hstep]
    exact this

theorem parseHexCore_err (v : List Nat) :
    ∀ (bs : List Nat), (∃ b ∈ bs, hexVal b = none) →
      ∀ n, parseHexCore v n bs = Except.error (Err.invalidChunkLength v) := by
  intro bs
  induction bs with
  | nil => intro h; simp at h
  | cons b bs ih =>
    intro h n
    rcases h with ⟨x, hx, hxn⟩
    rcases List.mem_cons.mp hx with rfl | hxtail
    · simp [parseHexCore, hxn]
    · cases hb : hexVal b with
      | none => simp [parseHexCore, hb]
      | some d => simp [parseHexCore, hb, ih ⟨x, hxtail, hxn⟩]

theorem parseHexUint_eq (v : List Nat) :
    parseHexUint v =
      if v.all (fun b => (hexVal b).isSome) then
        Except.ok (hexValue v % 2 ^ 64)
      else
        Except.error (Err.invalidChunkLength v) := by
  by_cases h : v.all (fun b => (hexVal b).isSome)
  · rw [if_pos h]
    have hall : ∀ b ∈ v, (hexVal b).isSome := by
      intro b hb
      exact List.all_eq_true.mp h b hb
    have := parseHexCore_all_hex v v hall 0 (by norm_num)
    simpa [parseHexUint, hexValue, hexStep] using this
  · rw [if_neg h]
    have : ∃ b ∈ v, hexVal b = none := by
      rw [List.all_eq_true] at h
      push_neg at h
      rcases h with ⟨x, hx, hxn⟩
      exact ⟨x, hx, Option.not_isSome_iff_eq_none.mp (by simpa using hxn)⟩
    exact parseHexCore_err v v this 0

/-! ### The `%x` hex rendering and its round trip through `parseHexUint` -/

theorem hexVal_hexDigit : ∀ d, d < 16 → hexVal (hexDigit d) = some d := by decide

theorem toHexAux_mem (n : Nat) :
    ∀ acc b, b ∈ toHexAux n acc → b ∈ acc ∨ ∃ d, d < 16 ∧ b = hexDigit d := by
  induction n using Nat.strong_induction_on with
  | _ n ih =>
    intro acc b hb
    rw [toHexAux] at hb
    split_ifs at hb with h0
    · exact Or.inl hb
    · have hlt : n / 16 < n := Nat.div_lt_self (Nat.pos_of_ne_zero h0) (by omega)
      rcases ih (n / 16) hlt _ b hb with hmem | hd
      · rcases List.mem_cons.mp hmem with rfl | hacc
        · exact Or.inr ⟨n % 16, Nat.mod_lt n (by omega), rfl⟩
        · exact Or.inl hacc
      · exact Or.inr hd

theorem toHex_all_hex (n : Nat) : ∀ b ∈ toHex n, (hexVal b).isSome := by
  intro b hb
  unfold toHex at hb
  split_ifs at hb with h0
  · simp at hb
    subst hb
    decide
  · rcases toHexAux_mem n [] b hb with hmem | ⟨d, hd, rfl⟩
    · simp at hmem
    · rw [hexVal_hexDigit d hd]
      rfl

theorem not_space_of_hexVal (b : Nat) (h : (hexVal b).isSome) :
    isASCIISpace b = false := by
  unfold hexVal at h
  split_ifs at h with h1 h2 h3 <;>
    first
      | (simp only [isASCIISpace, Bool.or_eq_false_iff, beq_eq_false_iff_ne, ne_eq]
         omega)
      | simp at h

theorem ne_newline_of_hexVal (b : Nat) (h : (hexVal b).isSome) : b ≠ 10 := by
  have hs := not_space_of_hexVal b h
  simp only [isASCIISpace, Bool.or_eq_false_iff, beq_eq_false_iff_ne, ne_eq] at hs
  omega

theorem foldl_hexStep_toHexAux :
    ∀ n, 0 < n → ∀ acc, List.foldl hexStep 0 (toHexAux n acc) = List.foldl hexStep n acc := by
  intro n
  induction n using Nat.strong_induction_on with
  | _ n ih =>
    intro hn acc
    rw [toHexAux, dif_neg (by omega)]
    have hstepval : hexStep 0 (hexDigit (n % 16)) = n % 16 := by
      simp [hexStep, hexVal_hexDigit (n % 16) (Nat.mod_lt n (by omega))]
    by_cases hq : n / 16 = 0
    · rw [toHexAux, dif_pos hq]
      have h16 : n % 16 = n := by omega
      simp only [List.foldl_cons, hstepval]
      rw [h16]
    · have hlt : n / 16 < n := Nat.div_lt_self hn (by omega)
      have := ih (n / 16) hlt (Nat.pos_of_ne_zero hq) (hexDigit (n % 16) :: acc)
      rw [this]
      simp only [List.foldl_cons]
      have : hexStep (n / 16) (hexDigit (n % 16)) = n := by
        simp [hexStep, hexVal_hexDigit (n % 16) (Nat.mod_lt n (by omega))]
        omega
      rw [this]

theorem hexValue_toHex (n : Nat) : hexValue (toHex n) = n := by
  unfold toHex hexValue
  split_ifs with h0
  · subst h0
    decide
  · exact foldl_hexStep_toHexAux n (Nat.pos_of_ne_zero h0) []

theorem parseHexUint_toHex (n : Nat) (hn : n < 2 ^ 64) :
    parseHexUint (toHex n) = Except.ok n := by
  rw [parseHexUint_eq]
  rw [if_pos (List.all_eq_true.mpr (fun b hb => toHex_all_hex n b hb))]
  rw [hexValue_toHex, Nat.mod_eq_of_lt hn]

theorem toHexAux_length :
    ∀ k n acc, n < 16 ^ k → (toHexAux n acc).length ≤ k + acc.length := by
  intro k
  induction k with
  | zero =>
    intro n acc h
    have : n = 0 := by simpa using h
    subst this
    rw [toHexAux, dif_pos rfl]
    omega
  | succ k ih =>
    intro n acc h
    rw [toHexAux]
    split_ifs with h0
    · omega
    · have hdiv : n / 16 < 16 ^ k := by
        have h16 : (16 : Nat) ^ (k + 1) = 16 ^ k * 16 := by ring
        exact Nat.div_lt_of_lt_mul (by omega)
      have := ih (n / 16) (hexDigit (n % 16) :: acc) hdiv
      simp only [List.length_cons] at this
      omega

theorem toHex_length_le (n : Nat) (hn : n < 2 ^ 64) : (toHex n).length ≤ 16 := by
  unfold toHex
  split_ifs with h0
  · simp
  · have h16 : n < 16 ^ 16 := by
      have : (16 : Nat) ^ 16 = 2 ^ 64 := by norm_num
      omega
    have := toHexAux_length 16 n [] h16
    simpa using this

/-! ### The line reader -/

theorem readSliceNL_append (pre rest : List Nat) (h : ∀ b ∈ pre, b ≠ 10) :
    readSliceNL (pre ++ 10 :: rest) = some (pre ++ [10], rest) := by
  induction pre with
  | nil => simp [readSliceNL]
  | cons x xs ih =>
    have hx : x ≠ 10 := h x (List.mem_cons_self x xs)
    have hih := ih (fun b hb => h b (List.mem_cons_of_mem x hb))
    simp [readSliceNL, hx, hih]

theorem dropWhile_all_false (p : Nat → Bool) :
    ∀ l : List Nat, (∀ x ∈ l, p x = false) → l.dropWhile p = l := by
  intro l
  cases l with
  | nil => intro _; rfl
  | cons x xs =>
    intro h
    rw [List.dropWhile_cons, if_neg (by simp [h x (List.mem_cons_self x xs)])]

theorem trim_append_crlf (xs : List Nat) (h : ∀ x ∈ xs, isASCIISpace x = false) :
    trimTrailingWhitespace (xs ++ [13, 10]) = xs := by
  unfold trimTrailingWhitespace
  have hrev : (xs ++ [13, 10]).reverse = 10 :: 13 :: xs.reverse := by
    simp
  rw [hrev, List.dropWhile_cons, if_pos (by decide), List.dropWhile_cons,
    if_pos (by decide),
    dropWhile_all_false _ xs.reverse (fun x hx => h x (List.mem_reverse.mp hx)),
    List.reverse_reverse]

theorem readLine_found (pre rest : List Nat) (hnl : ∀ b ∈ pre, b ≠ 10)
    (hlen : pre.length + 2 ≤ maxLineLength) :
    readLine (pre ++ 10 :: rest) =
      Except.ok (trimTrailingWhitespace (pre ++ [10]), rest) := by
  have hno : ¬ (maxLineLength ≤ (pre ++ [10]).length) := by
    simp only [List.length_append, List.length_cons, List.length_nil]
    unfold maxLineLength at hlen ⊢
    omega
  simp only [readLine, readSliceNL_append pre rest hnl]
  rw [if_neg hno]

theorem readLine_too_long (pre rest : List Nat) (hnl : ∀ b ∈ pre, b ≠ 10)
    (hlen : maxLineLength ≤ pre.length + 1) :
    readLine (pre ++ 10 :: rest) = Except.error Err.lineTooLong := by
  have hyes : maxLineLength ≤ (pre ++ [10]).length := by
    simp only [List.length_append, List.length_cons, List.length_nil]
    omega
  simp only [readLine, readSliceNL_append pre rest hnl]
  rw [if_pos hyes]

/-! ### Single `Read` calls of the chunked reader -/

theorem chunkedRead_latched (cr : chunkedReader) (k : Nat) (e : Err)
    (he : cr.err = some e) : chunkedRead cr k = ([], cr) := by
  unfold chunkedRead
  rw [if_pos (by simp [he])]

theorem chunkedRead_begin_err (cr : chunkedReader) (k : Nat) (e : Err)
    (h0 : cr.err = none) (hn : cr.n = 0) (he : (beginChunk cr).err = some e) :
    chunkedRead cr k = ([], beginChunk cr) := by
  unfold chunkedRead
  rw [if_neg (by simp [h0])]
  simp only [if_pos hn]
  rw [if_pos (by simp [he])]

theorem chunkedRead_begin (cr : chunkedReader) (k : Nat)
    (h0 : cr.err = none) (hn : cr.n = 0) (hbe : (beginChunk cr).err = none) :
    chunkedRead cr k = chunkedReadData (beginChunk cr) k := by
  unfold chunkedRead
  rw [if_neg (by simp [h0])]
  simp only [if_pos hn]
  rw [if_neg (by simp [hbe])]

theorem chunkedRead_not0 (cr : chunkedReader) (k : Nat)
    (h0 : cr.err = none) (hn : cr.n ≠ 0) :
    chunkedRead cr k = chunkedReadData cr k := by
  unfold chunkedRead
  rw [if_neg (by simp [h0])]
  simp only [if_neg hn]
  rw [if_neg (by simp [h0])]

theorem chunkedReadData_mid_le (buf rest : List Nat) (k : Nat)
    (hne : buf ≠ []) (hk : buf.length ≤ k) :
    chunkedReadData ⟨buf ++ 13 :: 10 :: rest, buf.length, none⟩ k
      = (buf, ⟨rest, 0, none⟩) := by
  obtain ⟨x, bs, rfl⟩ := List.exists_cons_of_ne_nil hne
  have hmin : min k (x :: bs).length = (x :: bs).length := Nat.min_eq_right hk
  have htake : ((x :: bs) ++ 13 :: 10 :: rest).take (x :: bs).length = x :: bs :=
    List.take_left (x :: bs) (13 :: 10 :: rest)
  have hdrop : ((x :: bs) ++ 13 :: 10 :: rest).drop (x :: bs).length = 13 :: 10 :: rest :=
    List.drop_left (x :: bs) (13 :: 10 :: rest)
  simp only [List.cons_append, List.length_cons] at hmin htake hdrop
  unfold chunkedReadData
  simp only [List.cons_append, List.length_cons, hmin, htake, hdrop]
  rw [if_pos (by omega)]
  all_goals simp

theorem chunkedReadData_mid_gt (buf rest : List Nat) (k : Nat)
    (hk : 0 < k) (hlt : k < buf.length) :
    chunkedReadData ⟨buf ++ 13 :: 10 :: rest, buf.length, none⟩ k
      = (buf.take k, ⟨buf.drop k ++ 13 :: 10 :: rest, buf.length - k, none⟩) := by
  have hbne : buf ≠ [] := List.ne_nil_of_length_pos (by omega)
  obtain ⟨x, bs, rfl⟩ := List.exists_cons_of_ne_nil hbne
  have hmin : min k (x :: bs).length = k := Nat.min_eq_left (by omega)
  have hkle : k ≤ (x :: bs).length := by omega
  have htake : ((x :: bs) ++ 13 :: 10 :: rest).take k = (x :: bs).take k :=
    List.take_append_of_le_length hkle
  have hdrop : ((x :: bs) ++ 13 :: 10 :: rest).drop k = (x :: bs).drop k ++ 13 :: 10 :: rest :=
    List.drop_append_of_le_length hkle
  have hlen : ((x :: bs).take k).length = k := List.length_take_of_le hkle
  simp only [List.cons_append, List.length_cons] at hmin htake hdrop
  unfold chunkedReadData
  simp only [List.cons_append, List.length_cons, hmin, htake, hdrop, hlen]
  all_goals rw [if_neg (by simp only [List.length_cons] at hlt; omega)]

theorem chunkedRead_mid_le (buf rest : List Nat) (k : Nat)
    (hne : buf ≠ []) (hk : buf.length ≤ k) :
    chunkedRead ⟨buf ++ 13 :: 10 :: rest, buf.length, none⟩ k
      = (buf, ⟨rest, 0, none⟩) := by
  rw [chunkedRead_not0 _ _ rfl (by
    show buf.length ≠ 0
    simp [List.length_eq_zero, hne])]
  exact chunkedReadData_mid_le buf rest k hne hk

theorem chunkedRead_mid_gt (buf rest : List Nat) (k : Nat)
    (hk : 0 < k) (hlt : k < buf.length) :
    chunkedRead ⟨buf ++ 13 :: 10 :: rest, buf.length, none⟩ k
      = (buf.take k, ⟨buf.drop k ++ 13 :: 10 :: rest, buf.length - k, none⟩) := by
  rw [chunkedRead_not0 _ _ rfl (by
    show buf.length ≠ 0
    omega)]
  exact chunkedReadData_mid_gt buf rest k hk hlt

/-! ### Iterated reads -/

theorem readAll_latched (g : Nat) (cr : chunkedReader) (k : Nat) (e : Err)
    (he : cr.err = some e) : readAll g cr k = ([], cr) := by
  cases g with
  | zero => rfl
  | succ g =>
    unfold readAll
    rw [if_pos (by simp [he])]

theorem ReadsTo_latched (cr : chunkedReader) (k : Nat) (e : Err)
    (he : cr.err = some e) : ReadsTo cr k [] cr :=
  ⟨0, fun g _ => readAll_latched g cr k e he⟩

theorem ReadsTo_step (cr cr₁ cr₂ : chunkedReader) (k : Nat) (got out : List Nat)
    (h0 : cr.err = none) (hstep : chunkedRead cr k = (got, cr₁))
    (htail : ReadsTo cr₁ k out cr₂) : ReadsTo cr k (got ++ out) cr₂ := by
  obtain ⟨f, hf⟩ := htail
  refine ⟨f + 1, fun g hg => ?_⟩
  obtain ⟨g', rfl⟩ : ∃ g', g = g' + 1 := ⟨g - 1, by omega⟩
  unfold readAll
  rw [if_neg (by simp [h0]), hstep]
  simp only
  rw [hf g' (by omega)]

theorem ReadsTo_drain (k : Nat) (hk : 0 < k) :
    ∀ m (buf rest out : List Nat) (cr₂ : chunkedReader), buf.length = m → buf ≠ [] →
      ReadsTo ⟨rest, 0, none⟩ k out cr₂ →
      ReadsTo ⟨buf ++ 13 :: 10 :: rest, buf.length, none⟩ k (buf ++ out) cr₂ := by
  intro m
  induction m using Nat.strong_induction_on with
  | _ m ih =>
    intro buf rest out cr₂ hm hne htail
    by_cases hle : buf.length ≤ k
    · have hstep := chunkedRead_mid_le buf rest k hne hle
      exact ReadsTo_step _ _ _ _ _ _ rfl hstep htail
    · have hlt : k < buf.length := by omega
      have hstep := chunkedRead_mid_gt buf rest k hk hlt
      have hdlen : (buf.drop k).length = buf.length - k := List.length_drop k buf
      have hdne : buf.drop k ≠ [] := by
        intro h
        rw [h] at hdlen
        simp at hdlen
        omega
      have hmid := ih (buf.length - k) (by omega) (buf.drop k) rest out cr₂ hdlen hdne htail
      rw [hdlen] at hmid
      have := ReadsTo_step _ _ _ _ _ _ rfl hstep hmid
      rw [← List.append_assoc, List.take_append_drop] at this
      exact this

/-! ### Reading one whole encoded chunk -/

theorem beginChunk_chunk (n : Nat) (tail : List Nat) (h0 : 0 < n) (hn : n < 2 ^ 64) :
    beginChunk ⟨toHex n ++ 13 :: 10 :: tail, 0, none⟩ = ⟨tail, n, none⟩ := by
  have hpre : ∀ b ∈ toHex n ++ [13], b ≠ 10 := by
    intro b hb
    rcases List.mem_append.mp hb with h | h
    · exact ne_newline_of_hexVal b (toHex_all_hex n b h)
    · simp at h
      omega
  have hlen : (toHex n ++ [13]).length + 2 ≤ maxLineLength := by
    have := toHex_length_le n hn
    simp only [List.length_append, List.length_cons, List.length_nil, maxLineLength]
    omega
  have heq : toHex n ++ 13 :: 10 :: tail = (toHex n ++ [13]) ++ 10 :: tail := by
    simp
  have hrl := readLine_found (toHex n ++ [13]) tail hpre hlen
  have htrim : trimTrailingWhitespace ((toHex n ++ [13]) ++ [10]) = toHex n := by
    have hx : (toHex n ++ [13]) ++ [10] = toHex n ++ [13, 10] := by simp
    rw [hx]
    exact trim_append_crlf (toHex n)
      (fun x hx => not_space_of_hexVal x (toHex_all_hex n x hx))
  unfold beginChunk
  rw [show (⟨toHex n ++ 13 :: 10 :: tail, 0, none⟩ : chunkedReader).r
      = (toHex n ++ [13]) ++ 10 :: tail from heq]
  rw [hrl]
  simp only [htrim, parseHexUint_toHex n hn]
  rw [if_neg (by omega)]

theorem ReadsTo_chunk (k : Nat) (hk : 0 < k) (buf rest' out : List Nat)
    (cr₂ : chunkedReader) (hne : buf ≠ []) (hlen : buf.length < 2 ^ 64)
    (htail : ReadsTo ⟨rest', 0, none⟩ k out cr₂) :
    ReadsTo ⟨toHex buf.length ++ 13 :: 10 :: (buf ++ 13 :: 10 :: rest'), 0, none⟩ k
      (buf ++ out) cr₂ := by
  have hpos : 0 < buf.length := List.length_pos.mpr hne
  have hbegin := beginChunk_chunk buf.length (buf ++ 13 :: 10 :: rest') hpos hlen
  by_cases hle : buf.length ≤ k
  · have hstep : chunkedRead
        ⟨toHex buf.length ++ 13 :: 10 :: (buf ++ 13 :: 10 :: rest'), 0, none⟩ k
        = (buf, ⟨rest', 0, none⟩) := by
      rw [chunkedRead_begin _ _ rfl rfl (by rw [hbegin]), hbegin]
      exact chunkedReadData_mid_le buf rest' k hne hle
    exact ReadsTo_step _ _ _ _ _ _ rfl hstep htail
  · have hlt : k < buf.length := by omega
    have hstep : chunkedRead
        ⟨toHex buf.length ++ 13 :: 10 :: (buf ++ 13 :: 10 :: rest'), 0, none⟩ k
        = (buf.take k, ⟨buf.drop k ++ 13 :: 10 :: rest', buf.length - k, none⟩) := by
      rw [chunkedRead_begin _ _ rfl rfl (by rw [hbegin]), hbegin]
      exact chunkedReadData_mid_gt buf rest' k hk hlt
    have hdlen : (buf.drop k).length = buf.length - k := List.length_drop k buf
    have hdne : buf.drop k ≠ [] := by
      intro h
      rw [h] at hdlen
      simp at hdlen
      omega
    have hmid := ReadsTo_drain k hk (buf.drop k).length (buf.drop k) rest' out cr₂
      rfl hdne htail
    rw [hdlen] at hmid
    have hall := ReadsTo_step _ _ _ _ _ _ rfl hstep hmid
    rw [← List.append_assoc, List.take_append_drop] at hall
    exact hall

theorem ReadsTo_term (k : Nat) :
    ReadsTo ⟨[48, 13, 10], 0, none⟩ k [] ⟨[], 0, some Err.eof⟩ := by
  have hb : beginChunk ⟨[48, 13, 10], 0, none⟩ = ⟨[], 0, some Err.eof⟩ := by decide
  have hstep := chunkedRead_begin_err ⟨[48, 13, 10], 0, none⟩ k Err.eof rfl rfl
    (by rw [hb])
  rw [hb] at hstep
  have hfin := ReadsTo_step _ _ _ _ _ _ rfl hstep
    (ReadsTo_latched ⟨[], 0, some Err.eof⟩ k Err.eof rfl)
  simpa using hfin

/-! ### The writer side -/

theorem writeAllChunks_shift (bs : List (List Nat)) :
    ∀ wire, writeAllChunks bs wire = wire ++ writeAllChunks bs [] := by
  induction bs with
  | nil =>
    intro wire
    simp [writeAllChunks]
  | cons b bs ih =>
    intro wire
    simp only [writeAllChunks]
    rw [ih (chunkedWriter.Write wire b).1, ih (chunkedWriter.Write [] b).1]
    unfold chunkedWriter.Write
    by_cases hb : b.length = 0
    · simp [hb]
    · simp [hb, List.append_assoc]

theorem encodeChunked_nil : encodeChunked [] = [48, 13, 10] := by decide

theorem encodeChunked_cons (b : List Nat) (bs : List (List Nat)) (hb : b ≠ []) :
    encodeChunked (b :: bs) =
      toHex b.length ++ 13 :: 10 :: (b ++ 13 :: 10 :: encodeChunked bs) := by
  have hcr : strBytes "\r\n" = [13, 10] := by decide
  have h0 : strBytes "0\r\n" = [48, 13, 10] := by decide
  unfold encodeChunked chunkedWriter.Close
  simp only [writeAllChunks]
  rw [writeAllChunks_shift bs (chunkedWriter.Write [] b).1]
  unfold chunkedWriter.Write
  rw [if_neg (by simp [List.length_eq_zero, hb])]
  simp [hcr, h0, List.append_assoc]

theorem ReadsTo_encode (k : Nat) (hk : 0 < k) :
    ∀ bufs : List (List Nat), (∀ b ∈ bufs, b ≠ [] ∧ b.length < 2 ^ 64) →
      ReadsTo ⟨encodeChunked bufs, 0, none⟩ k bufs.flatten ⟨[], 0, some Err.eof⟩ := by
  intro bufs
  induction bufs with
  | nil =>
    intro _
    rw [encodeChunked_nil]
    simpa using ReadsTo_term k
  | cons b bs ih =>
    intro hall
    obtain ⟨hne, hlen⟩ := hall b (List.mem_cons_self b bs)
    have htail := ih (fun x hx => hall x (List.mem_cons_of_mem b hx))
    have hchunk := ReadsTo_chunk k hk b (encodeChunked bs) bs.flatten
      ⟨[], 0, some Err.eof⟩ hne hlen htail
    rw [encodeChunked_cons b bs hne]
    simpa using hchunk

theorem chunkedReadData_mid_bad (buf rest : List Nat) (a b k : Nat)
    (hne : buf ≠ []) (hk : buf.length ≤ k) (hab : ¬(a = 13 ∧ b = 10)) :
    chunkedReadData ⟨buf ++ a :: b :: rest, buf.length, none⟩ k
      = (buf, ⟨rest, 0, some Err.malformedChunkedEncoding⟩) := by
  obtain ⟨x, bs, rfl⟩ := List.exists_cons_of_ne_nil hne
  have hmin : min k (x :: bs).length = (x :: bs).length := Nat.min_eq_right hk
  have htake : ((x :: bs) ++ a :: b :: rest).take (x :: bs).length = x :: bs :=
    List.take_left (x :: bs) (a :: b :: rest)
  have hdrop : ((x :: bs) ++ a :: b :: rest).drop (x :: bs).length = a :: b :: rest :=
    List.drop_left (x :: bs) (a :: b :: rest)
  simp only [List.cons_append, List.length_cons] at hmin htake hdrop
  unfold chunkedReadData
  simp only [List.cons_append, List.length_cons, hmin, htake, hdrop]
  rw [if_pos (by omega)]
  simp only [if_neg hab]

/-! ### Claims -/

/-- C1: Round-trip of the chunked codec. For every finite sequence of
non-empty byte buffers (each of a length representable in a Go `int`,
hence below `2 ^ 64`), writing each buffer with `chunkedWriter.Write`
followed by `Close`, and then reading the produced byte stream to
end-of-stream through a `chunkedReader` with any positive caller-buffer
capacity `k`, yields exactly the concatenation of the original buffers,
ending with `io.EOF` latched at the zero-length terminator with the whole
stream consumed. -/
theorem chunked_roundtrip (bufs : List (List Nat)) (k : Nat) (hk : 0 < k)
    (hbufs : ∀ b ∈ bufs, b ≠ [] ∧ b.length < 2 ^ 64) :
    ReadsTo ⟨encodeChunked bufs, 0, none⟩ k bufs.flatten ⟨[], 0, some Err.eof⟩ :=
  ReadsTo_encode k hk bufs hbufs

/-- Witness for C1 at the concrete buffer sequence `["hi", "!"]` with
caller-buffer capacity 2. -/
theorem chunked_roundtrip_witness :
    (0 : Nat) < 2 ∧ (∀ b ∈ [[104, 105], [33]], b ≠ ([] : List Nat) ∧ b.length < 2 ^ 64) ∧
      ReadsTo ⟨encodeChunked [[104, 105], [33]], 0, none⟩ 2 [104, 105, 33]
        ⟨[], 0, some Err.eof⟩ :=
  ⟨by decide, by decide, by
    have h := chunked_roundtrip [[104, 105], [33]] 2 (by decide) (by decide)
    simpa using h⟩

/-- C2 counterexample: a trace in which the handler's first response sets
`Connection: close`, yet `conn.serve` goes on to read and serve a second
request (`served = 2`), and on the eventual read error invokes
`c.rwc.Close()` twice (once directly in the loop, once inside `c.close`),
not once. This falsifies both halves of the claim that the connection is
torn down at the first `Connection: close` response and closed exactly
once. -/
theorem serve_close_counterexample :
    conn.serve [ReadOutcome.request (HandlerOutcome.returns true),
        ReadOutcome.request (HandlerOutcome.returns false), ReadOutcome.readError]
      = ⟨2, 2, true, false⟩ ∧ (2 : Nat) ≠ 1 := by
  exact ⟨by decide, by decide⟩

/-- C2 (amended): a connection serves requests strictly sequentially and is
torn down exactly when the first nil-writer or fatal read error occurs; a
response that sets `Connection: close` does not by itself end the loop, and
at teardown the underlying connection's `Close` is invoked twice (once
directly in the loop, once via `conn.close`, which also flushes). -/
theorem serve_teardown_amended (flags : List Bool) (t : ReadOutcome)
    (rest : List ReadOutcome)
    (ht : t = ReadOutcome.nilWriter ∨ t = ReadOutcome.readError) :
    conn.serve
        (flags.map (fun c => ReadOutcome.request (HandlerOutcome.returns c)) ++ t :: rest)
      = ⟨flags.length, 2, true, false⟩ := by
  induction flags with
  | nil => rcases ht with rfl | rfl <;> rfl
  | cons c cs ih =>
    simp only [List.map_cons, List.cons_append, conn.serve, List.length_cons,
      List.append_eq]
    rw [ih]

/-- Witness for C2 (amended): one completed request whose response sets
`Connection: close`, then a read error. -/
theorem serve_teardown_amended_witness :
    (ReadOutcome.readError = ReadOutcome.nilWriter ∨
      ReadOutcome.readError = ReadOutcome.readError) ∧
    conn.serve
        ([true].map (fun c => ReadOutcome.request (HandlerOutcome.returns c))
          ++ ReadOutcome.readError :: [])
      = ⟨1, 2, true, false⟩ :=
  ⟨Or.inr rfl, serve_teardown_amended [true] ReadOutcome.readError [] (Or.inr rfl)⟩

/-- C3 counterexample: on a handler panic the deferred recovery logs the
panic (`panicLogged = true`, and `conn.serve` returns rather than
propagating), but the connection is never closed: `c.rwc.Close()` is
invoked zero times and the buffered writer is not flushed, because
`c.close()` sits after the serve loop and a panic bypasses it. This
falsifies the claim's "and the connection is closed" part. -/
theorem serve_panic_counterexample :
    conn.serve [ReadOutcome.request HandlerOutcome.panics] = ⟨0, 0, false, true⟩ ∧
    (conn.serve [ReadOutcome.request HandlerOutcome.panics]).rwcCloses = 0 := by
  exact ⟨by decide, by decide⟩

/-- C3 (amended): if the handler invoked for a request panics, the panic is
caught by the deferred recovery in `conn.serve` (serve returns a result
instead of propagating) and is logged with a stack trace, but the
connection is not closed: `serve` returns with zero `rwc.Close`
invocations and no flush, after however many earlier requests completed
normally. -/
theorem serve_panic_amended (flags : List Bool) (rest : List ReadOutcome) :
    conn.serve
        (flags.map (fun c => ReadOutcome.request (HandlerOutcome.returns c))
          ++ ReadOutcome.request HandlerOutcome.panics :: rest)
      = ⟨flags.length, 0, false, true⟩ := by
  induction flags with
  | nil => rfl
  | cons c cs ih =>
    simp only [List.map_cons, List.cons_append, conn.serve, List.length_cons,
      List.append_eq]
    rw [ih]

/-- C4 counterexample: on the chunk-size line `zz` the reader's `Read`
returns zero bytes with the error `invalid chunk length: 'zz'`
(a plain `fmt.Errorf` value), not `ProtocolError("malformed chunk size")`:
even its message differs from the one the claim names. -/
theorem malformed_chunk_size_counterexample :
    chunkedRead ⟨[122, 122, 13, 10, 88], 0, none⟩ 4096
      = ([], ⟨[88], 0, some (Err.invalidChunkLength [122, 122])⟩) ∧
    errMessage (Err.invalidChunkLength [122, 122]) ≠ "malformed chunk size" := by
  exact ⟨by decide, by decide⟩

/-- C4 (amended): for every chunk-size line whose bytes (after
trailing-whitespace trimming by `readLine`) are not all hexadecimal
digits, the chunked reader's next `Read` returns zero bytes and fails with
the error `invalid chunk length: '<line>'` carrying the offending line. -/
theorem malformed_chunk_size_amended (input line rest : List Nat) (k : Nat)
    (hline : readLine input = Except.ok (line, rest))
    (hbad : line.all (fun b => (hexVal b).isSome) = false) :
    chunkedRead ⟨input, 0, none⟩ k
      = ([], ⟨rest, 0, some (Err.invalidChunkLength line)⟩) := by
  have hbe : beginChunk ⟨input, 0, none⟩
      = ⟨rest, 0, some (Err.invalidChunkLength line)⟩ := by
    unfold beginChunk
    rw [show (⟨input, 0, none⟩ : chunkedReader).r = input from rfl, hline]
    simp only [parseHexUint_eq, hbad]
    rw [if_neg (by simp)]
  rw [chunkedRead_begin_err _ _ _ rfl rfl (by rw [hbe]), hbe]

/-- Witness for C4 (amended) at the line `zz`. -/
theorem malformed_chunk_size_amended_witness :
    readLine [122, 122, 13, 10, 88] = Except.ok ([122, 122], [88]) ∧
    ([122, 122].all (fun b => (hexVal b).isSome)) = false ∧
    chunkedRead ⟨[122, 122, 13, 10, 88], 0, none⟩ 5
      = ([], ⟨[88], 0, some (Err.invalidChunkLength [122, 122])⟩) :=
  ⟨by rfl, by decide,
    malformed_chunk_size_amended [122, 122, 13, 10, 88] [122, 122] [88] 5
      (by rfl) (by decide)⟩

/-- C5 counterexample: the stream `2\r\nabcd\r\n` declares a 2-byte chunk
but carries 4 data bytes; the reader consumes `ab`, then finds `cd` where
`\r\n` is required, and fails with `malformed chunked encoding`
(a plain `errors.New` value), not `ProtocolError("missing chunk CRLF")`:
even its message differs from the one the claim names. -/
theorem missing_chunk_crlf_counterexample :
    chunkedRead ⟨[50, 13, 10, 97, 98, 99, 100, 13, 10], 0, none⟩ 8
      = ([97, 98], ⟨[13, 10], 0, some Err.malformedChunkedEncoding⟩) ∧
    errMessage Err.malformedChunkedEncoding ≠ "missing chunk CRLF" := by
  exact ⟨by decide, by decide⟩

/-- C5 (amended): for every chunk whose declared size has been fully
consumed (here: the remaining `buf` bytes of the chunk are read in one
call), if the next two bytes of the stream are not `\r\n`, the chunked
reader's `Read` fails with the error `malformed chunked encoding`. -/
theorem missing_chunk_crlf_amended (buf rest : List Nat) (a b k : Nat)
    (hne : buf ≠ []) (hk : buf.length ≤ k) (hab : ¬(a = 13 ∧ b = 10)) :
    chunkedRead ⟨buf ++ a :: b :: rest, buf.length, none⟩ k
      = (buf, ⟨rest, 0, some Err.malformedChunkedEncoding⟩) := by
  rw [chunkedRead_not0 _ _ rfl (by
    show buf.length ≠ 0
    simp [List.length_eq_zero, hne])]
  exact chunkedReadData_mid_bad buf rest a b k hne hk hab

/-- Witness for C5 (amended): a 1-byte chunk followed by `XY` instead of
the closing CRLF. -/
theorem missing_chunk_crlf_amended_witness :
    ([97] : List Nat) ≠ [] ∧ ([97] : List Nat).length ≤ 1 ∧
    ¬((88 : Nat) = 13 ∧ (89 : Nat) = 10) ∧
    chunkedRead ⟨[97] ++ 88 :: 89 :: [90], [97].length, none⟩ 1
      = ([97], ⟨[90], 0, some Err.malformedChunkedEncoding⟩) :=
  ⟨by decide, by decide, by decide,
    missing_chunk_crlf_amended [97] [90] 88 89 1 (by decide) (by decide) (by decide)⟩

/-- C6: line reads in the chunked decoder are capped at 4096 bytes
(`maxLineLength`): `readLine` succeeds on every line of fewer than 4096
bytes up to and including the newline, any single line exceeding 4096
bytes fails with `errLineTooLong`, and that error's message is
"header line too long". -/
theorem readLine_cap (pre rest : List Nat) (hnl : ∀ b ∈ pre, b ≠ 10) :
    (pre.length + 1 < 4096 →
      readLine (pre ++ 10 :: rest)
        = Except.ok (trimTrailingWhitespace (pre ++ [10]), rest)) ∧
    (4096 < pre.length + 1 →
      readLine (pre ++ 10 :: rest) = Except.error Err.lineTooLong) ∧
    errMessage Err.lineTooLong = "header line too long" := by
  refine ⟨?_, ?_, rfl⟩
  · intro h
    exact readLine_found pre rest hnl (by unfold maxLineLength; omega)
  · intro h
    exact readLine_too_long pre rest hnl (by unfold maxLineLength; omega)

/-- Witness for C6: a 2-byte line succeeds; a 4097-byte line fails with
the "header line too long" error. -/
theorem readLine_cap_witness :
    readLine ([104] ++ 10 :: [120]) = Except.ok ([104], [120]) ∧
    readLine (List.replicate 4096 104 ++ 10 :: []) = Except.error Err.lineTooLong := by
  constructor
  · have h := (readLine_cap [104] [120] (by decide)).1 (by decide)
    have ht : trimTrailingWhitespace ([104] ++ [10]) = [104] := by decide
    rw [ht] at h
    exact h
  · have hnl : ∀ b ∈ List.replicate 4096 104, b ≠ 10 := by
      intro b hb
      rw [List.eq_of_mem_replicate hb]
      decide
    have hlen : 4096 < (List.replicate 4096 104 : List Nat).length + 1 := by
      rw [List.length_replicate]
      omega
    exact (readLine_cap (List.replicate 4096 104) [] hnl).2.1 hlen

/-- C7: `chunkedWriter.Write` with empty data emits nothing on the wire
and returns 0; with non-empty data it appends exactly
`hex(len(data)) CRLF data CRLF` and returns `len(data)`. -/
theorem chunkedWriter_write_frame (wire data : List Nat) :
    (data = [] → chunkedWriter.Write wire data = (wire, 0)) ∧
    (data ≠ [] → chunkedWriter.Write wire data
      = (wire ++ toHex data.length ++ [13, 10] ++ data ++ [13, 10], data.length)) := by
  constructor
  · rintro rfl
    rfl
  · intro h
    unfold chunkedWriter.Write
    rw [if_neg (by simp [List.length_eq_zero, h])]
    have hcr : strBytes "\r\n" = [13, 10] := by decide
    rw [hcr]

/-- Witness for C7: the empty write and the 2-byte write `hi`. -/
theorem chunkedWriter_write_frame_witness :
    chunkedWriter.Write [] [] = ([], 0) ∧
    chunkedWriter.Write [] [104, 105]
      = ([] ++ toHex 2 ++ [13, 10] ++ [104, 105] ++ [13, 10], 2) :=
  ⟨(chunkedWriter_write_frame [] []).1 rfl,
    (chunkedWriter_write_frame [] [104, 105]).2 (by decide)⟩

/-- C8: `chunkedWriter.Close` appends exactly the three bytes `0\r\n`
(`[48, 13, 10]`) — the zero-length terminator without the final CRLF. -/
theorem chunkedWriter_close_bytes (wire : List Nat) :
    chunkedWriter.Close wire = wire ++ [48, 13, 10] ∧
    (chunkedWriter.Close wire).length = wire.length + 3 := by
  have h : strBytes "0\r\n" = [48, 13, 10] := by decide
  constructor
  · unfold chunkedWriter.Close
    rw [h]
  · unfold chunkedWriter.Close
    rw [h]
    simp

/-- C9: the chunked reader latches its first error: whenever a `Read` call
has returned with error `e` recorded (every error-returning path of
`chunkedReader.Read` stores the returned error in `cr.err`), every
subsequent `Read`, with any buffer capacity, returns zero bytes, the same
error, and leaves the reader (in particular its remaining input) entirely
unchanged. -/
theorem chunkedReader_error_latch (cr cr' : chunkedReader) (k : Nat)
    (out : List Nat) (e : Err)
    (_hread : chunkedRead cr k = (out, cr')) (herr : cr'.err = some e) :
    ∀ k', chunkedRead cr' k' = ([], cr') ∧ (chunkedRead cr' k').2.err = some e := by
  intro k'
  have h := chunkedRead_latched cr' k' e herr
  exact ⟨h, by rw [h]; exact herr⟩

/-- Witness for C9: after the malformed size line `zz` latches an error,
a further read with a different buffer size returns nothing and the same
error. -/
theorem chunkedReader_error_latch_witness :
    chunkedRead ⟨[122, 122, 13, 10, 88], 0, none⟩ 3
      = ([], ⟨[88], 0, some (Err.invalidChunkLength [122, 122])⟩) ∧
    (⟨[88], 0, some (Err.invalidChunkLength [122, 122])⟩ : chunkedReader).err
      = some (Err.invalidChunkLength [122, 122]) ∧
    (chunkedRead ⟨[88], 0, some (Err.invalidChunkLength [122, 122])⟩ 7
        = ([], ⟨[88], 0, some (Err.invalidChunkLength [122, 122])⟩) ∧
      (chunkedRead ⟨[88], 0, some (Err.invalidChunkLength [122, 122])⟩ 7).2.err
        = some (Err.invalidChunkLength [122, 122])) :=
  ⟨by decide, rfl,
    chunkedReader_error_latch ⟨[122, 122, 13, 10, 88], 0, none⟩
      ⟨[88], 0, some (Err.invalidChunkLength [122, 122])⟩ 3 []
      (Err.invalidChunkLength [122, 122]) (by decide) rfl 7⟩

/-- C10: `parseHexUint` maps every all-hexadecimal input (upper- or
lower-case digits) to the base-16 value of its digits reduced modulo
`2 ^ 64` (empty input gives 0; more than 16 digits wrap silently), and
errors with `invalid chunk length` exactly when some byte is not a hex
digit. -/
theorem parseHexUint_spec (v : List Nat) :
    parseHexUint v =
      if v.all (fun b => (hexVal b).isSome) then Except.ok (hexValue v % 2 ^ 64)
      else Except.error (Err.invalidChunkLength v) :=
  parseHexUint_eq v

end Icap
